import Mathlib

/-!
Shallow embedding of the `homework4-shortener` service (`src/main.rs`): a
URL-shortening service backed by a Postgres table
`urls (id CHAR(6) PRIMARY KEY, url TEXT NOT NULL UNIQUE)`.

The persistent store is modelled as an explicit value threaded through every
operation.  The random identifier produced by `nanoid!(6)` is modelled by
passing the freshly generated identifier (or the random index stream that
produces it) as an explicit argument.  Store-level I/O failures (connection
loss etc.) are modelled by an explicit `fault` flag injected into each
store call.
-/

/-- A row of the `urls` table (Rust `struct UrlRecord { id, url }`). -/
structure UrlRecord where
  id : String
  url : String
deriving Repr, DecidableEq

/-- Rust `enum ShortnError` (`ConnectionFailure`, `ShortnRequestError`,
`GetUrlError`). -/
inductive ShortnError where
  | ConnectionFailure
  | ShortnRequestError
  | GetUrlError
deriving Repr, DecidableEq

/-- Store-level (`sqlx`) error outcomes relevant to this program: the
`RowNotFound` error produced by `fetch_one` on an empty result set, and any
other failure (connection loss, constraint violation, ...). -/
inductive SqlxError where
  | RowNotFound
  | OtherFailure
deriving Repr, DecidableEq

/-- The state of the Postgres database: whether the `urls` table has been
created, and its rows. -/
structure Store where
  tableExists : Bool
  rows : List UrlRecord
deriving Repr, DecidableEq

/-- Semantics of `CREATE TABLE IF NOT EXISTS urls (...)`: after execution the
table exists; an already existing table is left as it is. -/
def execCreateTable (st : Store) : Store :=
  { st with tableExists := true }

/-- Semantics of the statement
`INSERT INTO urls (id, url) VALUES ($1, $2) ON CONFLICT(url) DO UPDATE SET
id=excluded.id RETURNING *` run with a `fault` flag for injected I/O failure.
The statement fails with a primary-key violation exactly when some row with a
*different* url already holds the fresh id (in the plain-insert case that is
any row with that id; in the conflicting-url case the update would duplicate
the id held by another row).  On a url conflict the existing row's `id` is
overwritten with the fresh id; otherwise the new row is appended.  `RETURNING
*` yields the inserted/updated row. -/
def execUpsert (st : Store) (freshId url : String) (fault : Bool) :
    Except SqlxError UrlRecord × Store :=
  if fault then
    (.error .OtherFailure, st)
  else if st.rows.any (fun r => r.id == freshId && r.url != url) then
    (.error .OtherFailure, st)
  else if st.rows.any (fun r => r.url == url) then
    (.ok ⟨freshId, url⟩,
     { st with rows := st.rows.map (fun r =>
        if r.url == url then { r with id := freshId } else r) })
  else
    (.ok ⟨freshId, url⟩, { st with rows := st.rows ++ [⟨freshId, url⟩] })

/-- Semantics of `SELECT url FROM urls WHERE id = $1` run through `fetch_one`
(which errors with `RowNotFound` on an empty result set), with a `fault` flag
for injected I/O failure.  A `SELECT` never modifies the store. -/
def execSelectUrl (st : Store) (id : String) (fault : Bool) :
    Except SqlxError String × Store :=
  if fault then
    (.error .OtherFailure, st)
  else
    match st.rows.find? (fun r => r.id == id) with
    | some r => (.ok r.url, st)
    | none => (.error .RowNotFound, st)

namespace AppState

/-- Rust `AppState::shortn` with the freshly generated identifier passed
explicitly: runs the upsert and maps *any* store error to
`ShortnRequestError`, returning the `id` of the row produced by
`RETURNING *`. -/
def shortn (st : Store) (freshId url : String) (fault : Bool) :
    Except ShortnError String × Store :=
  match execUpsert st freshId url fault with
  | (.ok row, st') => (.ok row.id, st')
  | (.error _, st') => (.error .ShortnRequestError, st')

/-- Rust `AppState::get_url`: runs the `SELECT` and maps *any* store error
(row-not-found as well as any other failure) to `GetUrlError`. -/
def get_url (st : Store) (id : String) (fault : Bool) :
    Except ShortnError String × Store :=
  match execSelectUrl st id fault with
  | (.ok url, st') => (.ok url, st')
  | (.error _, st') => (.error .GetUrlError, st')

/-- Rust `AppState::try_new`: connects to the database and executes the
`CREATE TABLE IF NOT EXISTS` statement, mapping a failure of either step to
`ConnectionFailure`.  The two fault flags model an unreachable database and a
failing DDL statement respectively. -/
def try_new (st : Store) (connectFault schemaFault : Bool) :
    Except ShortnError Unit × Store :=
  if connectFault then
    (.error .ConnectionFailure, st)
  else if schemaFault then
    (.error .ConnectionFailure, st)
  else
    (.ok (), execCreateTable st)

end AppState

/-- The `main` start-up sequence up to the construction of the `AppState`:
`AppState::try_new(url).await?` propagates any error (aborting the process
start) and otherwise continues with the provisioned store. -/
def mainStartup (st : Store) (connectFault schemaFault : Bool) :
    Except ShortnError Store :=
  match AppState.try_new st connectFault schemaFault with
  | (.ok _, st') => .ok st'
  | (.error e, _) => .error e

/-- The service's externally reachable base address hardcoded in the
`shortner` handler (`format!("http://127.0.0.1:9876/{}", id)`). -/
def baseAddr : String := "http://127.0.0.1:9876"

/-- Response body of `POST /` (Rust `struct ShortnResponse { id, url }`). -/
structure ShortnResponse where
  id : String
  url : String
deriving Repr, DecidableEq

/-- The `shortner` handler for `POST /`: calls `shortn`; any error becomes
HTTP 500 (`INTERNAL_SERVER_ERROR`); on success it answers HTTP 201
(`CREATED`) with body `{ id, url: "http://127.0.0.1:9876/<id>" }`. -/
def shortner (st : Store) (freshId url : String) (fault : Bool) :
    Except Nat (Nat × ShortnResponse) × Store :=
  match AppState.shortn st freshId url fault with
  | (.ok id, st') => (.ok (201, ⟨id, baseAddr ++ "/" ++ id⟩), st')
  | (.error _, st') => (.error 500, st')

/-- Modelled from the spec (the `http` crate's `HeaderValue::from_str` is an
external dependency, not part of this repository): a string can be encoded
into a `Location` header when every byte is a visible ASCII character, space
or horizontal tab. -/
def headerEncodable (s : String) : Bool :=
  s.toList.all (fun c => c == '\t' || (0x20 ≤ c.toNat && c.toNat ≤ 0x7e))

/-- The `redirect` handler for `GET /{id}`: calls `get_url`; any resolution
error becomes HTTP 404 (`NOT_FOUND`); a url that cannot be encoded as a
`Location` header becomes HTTP 500; otherwise it answers HTTP 302 (`FOUND`)
with the url as the `Location` value. -/
def redirect (st : Store) (id : String) (fault : Bool) :
    Except Nat (Nat × String) × Store :=
  match AppState.get_url st id fault with
  | (.error _, st') => (.error 404, st')
  | (.ok url, st') =>
      if headerEncodable url then (.ok (302, url), st')
      else (.error 500, st')

/-- The default alphabet of the `nanoid` crate used by `nanoid!(6)`: 64
URL-safe symbols (underscore, hyphen, digits, lowercase and uppercase
letters).  Modelled from the spec (the `nanoid` crate is an external
dependency, not part of this repository). -/
def nanoidAlphabet : List Char :=
  ['_', '-'] ++
  ((List.range 10).map (fun i => Char.ofNat ('0'.toNat + i))) ++
  ((List.range 26).map (fun i => Char.ofNat ('a'.toNat + i))) ++
  ((List.range 26).map (fun i => Char.ofNat ('A'.toNat + i)))

/-- Modelled from the spec: `nanoid!(len)` draws `len` symbols from the
64-symbol default alphabet; the random choices are modelled by the explicit
index stream `pick`. -/
def nanoid (len : Nat) (pick : Nat → Fin 64) : String :=
  String.mk ((List.range len).map (fun i => nanoidAlphabet.getD (pick i).val ' '))

/-- One `put` step for a whole run: `AppState::shortn` with the given fresh
identifier and url (no injected fault), keeping the resulting store and
discarding the returned value; a failed statement leaves the store
unchanged. -/
def runPut (st : Store) (op : String × String) : Store :=
  (AppState.shortn st op.1 op.2 false).2

/-- Executes a sequence of `put` calls (each given as `(fresh id, url)`)
starting from the freshly provisioned empty store. -/
def runPuts (ops : List (String × String)) : Store :=
  ops.foldl runPut (execCreateTable ⟨false, []⟩)

/-!  Helper lemmas about the embedded operations. -/

/-- The update function applied to every row on a url conflict. -/
def overwriteId (fid u : String) (r : UrlRecord) : UrlRecord :=
  if r.url == u then { r with id := fid } else r

theorem execUpsert_update_eq (st : Store) (fid u : String)
    (hcol : st.rows.any (fun r => r.id == fid && r.url != u) = false)
    (hdup : st.rows.any (fun r => r.url == u) = true) :
    execUpsert st fid u false =
      (.ok ⟨fid, u⟩, { st with rows := st.rows.map (overwriteId fid u) }) := by
  unfold execUpsert overwriteId
  simp [hcol, hdup]

theorem execUpsert_insert_eq (st : Store) (fid u : String)
    (hcol : st.rows.any (fun r => r.id == fid && r.url != u) = false)
    (hdup : st.rows.any (fun r => r.url == u) = false) :
    execUpsert st fid u false = (.ok ⟨fid, u⟩, { st with rows := st.rows ++ [⟨fid, u⟩] }) := by
  unfold execUpsert
  simp [hcol, hdup]

/-- Successful `shortn` characterized: the returned id is the fresh id, no row
with a different url held the fresh id, and the rows are either the url-keyed
overwrite (when the url was present) or the plain append (when it was not). -/
theorem shortn_ok_cases {st st' : Store} {fid u id' : String}
    (h : AppState.shortn st fid u false = (.ok id', st')) :
    id' = fid ∧
    st.rows.any (fun r => r.id == fid && r.url != u) = false ∧
    st'.tableExists = st.tableExists ∧
    ((st.rows.any (fun r => r.url == u) = true ∧
      st'.rows = st.rows.map (overwriteId fid u)) ∨
     (st.rows.any (fun r => r.url == u) = false ∧
      st'.rows = st.rows ++ [⟨fid, u⟩])) := by
  cases hcol : st.rows.any (fun r => r.id == fid && r.url != u) with
  | true =>
      unfold AppState.shortn execUpsert at h
      simp [hcol] at h
  | false =>
      cases hdup : st.rows.any (fun r => r.url == u) with
      | true =>
          unfold AppState.shortn at h
          rw [execUpsert_update_eq st fid u hcol hdup] at h
          simp only [Prod.mk.injEq, Except.ok.injEq] at h
          obtain ⟨hid, hst⟩ := h
          subst hst
          exact ⟨hid.symm, rfl, rfl, .inl ⟨rfl, rfl⟩⟩
      | false =>
          unfold AppState.shortn at h
          rw [execUpsert_insert_eq st fid u hcol hdup] at h
          simp only [Prod.mk.injEq, Except.ok.injEq] at h
          obtain ⟨hid, hst⟩ := h
          subst hst
          exact ⟨hid.symm, rfl, rfl, .inr ⟨rfl, rfl⟩⟩

theorem shortn_snd (st : Store) (fid u : String) (fault : Bool) :
    (AppState.shortn st fid u fault).2 = (execUpsert st fid u fault).2 := by
  unfold AppState.shortn
  cases h : execUpsert st fid u fault with
  | mk res st' => cases res <;> simp

theorem get_url_snd (st : Store) (id : String) (fault : Bool) :
    (AppState.get_url st id fault).2 = st := by
  unfold AppState.get_url execSelectUrl
  cases fault with
  | true => rfl
  | false =>
      cases h : st.rows.find? (fun r => r.id == id) <;> simp [h]

theorem find_url_map_overwrite {fid u : String} {l : List UrlRecord}
    (hdup : ∃ r ∈ l, r.url = u) :
    (l.map (overwriteId fid u)).find? (fun r => r.url == u) = some ⟨fid, u⟩ := by
  induction l with
  | nil => simp at hdup
  | cons a t ih =>
      by_cases ha : a.url = u
      · simp [overwriteId, List.find?_cons, ha]
      · have ht : ∃ r ∈ t, r.url = u := by
          rcases hdup with ⟨r, hr, hru⟩
          rcases List.mem_cons.mp hr with rfl | hrt
          · exact absurd hru ha
          · exact ⟨r, hrt, hru⟩
        simpa [overwriteId, List.find?_cons, ha] using ih ht

theorem find_url_append {fid u : String} {l : List UrlRecord}
    (hdup : ∀ r ∈ l, r.url ≠ u) :
    (l ++ [(⟨fid, u⟩ : UrlRecord)]).find? (fun r => r.url == u) = some ⟨fid, u⟩ := by
  rw [List.find?_append]
  have h1 : l.find? (fun r => r.url == u) = none :=
    List.find?_eq_none.mpr (fun r hr => by simp [hdup r hr])
  simp [h1, List.find?_cons]

theorem find_id_map_overwrite {fid u : String} {l : List UrlRecord}
    (hdup : ∃ r ∈ l, r.url = u)
    (hcol : ∀ r ∈ l, r.url ≠ u → r.id ≠ fid) :
    (l.map (overwriteId fid u)).find? (fun r => r.id == fid) = some ⟨fid, u⟩ := by
  induction l with
  | nil => simp at hdup
  | cons a t ih =>
      by_cases ha : a.url = u
      · simp [overwriteId, List.find?_cons, ha]
      · have hid : a.id ≠ fid := hcol a (List.mem_cons_self a t) ha
        have ht : ∃ r ∈ t, r.url = u := by
          rcases hdup with ⟨r, hr, hru⟩
          rcases List.mem_cons.mp hr with rfl | hrt
          · exact absurd hru ha
          · exact ⟨r, hrt, hru⟩
        have hct : ∀ r ∈ t, r.url ≠ u → r.id ≠ fid :=
          fun r hr => hcol r (List.mem_cons_of_mem a hr)
        simpa [overwriteId, List.find?_cons, ha, hid] using ih ht hct

theorem find_id_append {fid u : String} {l : List UrlRecord}
    (hcol : ∀ r ∈ l, r.id ≠ fid) :
    (l ++ [(⟨fid, u⟩ : UrlRecord)]).find? (fun r => r.id == fid) = some ⟨fid, u⟩ := by
  rw [List.find?_append]
  have h1 : l.find? (fun r => r.id == fid) = none :=
    List.find?_eq_none.mpr (fun r hr => by simp [hcol r hr])
  simp [h1, List.find?_cons]

/-- A successful `shortn` guarantees that no row with a different url held the
fresh identifier beforehand (otherwise the statement would have failed with a
primary-key violation). -/
theorem shortn_ok_no_foreign_id {st st' : Store} {fid u id' : String}
    (h : AppState.shortn st fid u false = (.ok id', st')) :
    ∀ r ∈ st.rows, r.url ≠ u → r.id ≠ fid := by
  obtain ⟨-, hcol, -, -⟩ := shortn_ok_cases h
  intro r hr hru
  have hx := List.any_eq_false.mp hcol r hr
  simpa [hru] using hx

/-- Every row after a successful `shortn` is either the fresh `(fid, u)`
binding or an untouched old row whose url differs from `u`. -/
theorem shortn_ok_mem {st st' : Store} {fid u id' : String}
    (h : AppState.shortn st fid u false = (.ok id', st')) :
    ∀ r ∈ st'.rows, (r.url = u ∧ r.id = fid) ∨ (r ∈ st.rows ∧ r.url ≠ u) := by
  obtain ⟨-, -, -, hcase⟩ := shortn_ok_cases h
  intro r hr
  rcases hcase with ⟨hdup, hrows⟩ | ⟨hdup, hrows⟩ <;> rw [hrows] at hr
  · obtain ⟨r0, hr0, rfl⟩ := List.mem_map.mp hr
    by_cases h0 : r0.url = u
    · exact .inl ⟨by simp [overwriteId, h0], by simp [overwriteId, h0]⟩
    · exact .inr ⟨by simpa [overwriteId, h0] using hr0, by simp [overwriteId, h0]⟩
  · rcases List.mem_append.mp hr with hrl | hrr
    · have hru : r.url ≠ u := by
        have hx := List.any_eq_false.mp hdup r hrl
        simpa using hx
      exact .inr ⟨hrl, hru⟩
    · have hr1 : r = ⟨fid, u⟩ := by simp_all
      subst hr1
      exact .inl ⟨rfl, rfl⟩

/-- A successful `shortn` leaves a row with url `u` behind. -/
theorem shortn_ok_has_url {st st' : Store} {fid u id' : String}
    (h : AppState.shortn st fid u false = (.ok id', st')) :
    ∃ r ∈ st'.rows, r.url = u := by
  obtain ⟨-, -, -, hcase⟩ := shortn_ok_cases h
  rcases hcase with ⟨hdup, hrows⟩ | ⟨hdup, hrows⟩ <;> rw [hrows]
  · obtain ⟨r0, hr0, h0⟩ := List.any_eq_true.mp hdup
    refine ⟨overwriteId fid u r0, List.mem_map_of_mem _ hr0, ?_⟩
    have h0' : r0.url = u := by simpa using h0
    simp [overwriteId, h0']
  · exact ⟨⟨fid, u⟩, by simp, rfl⟩

theorem any_url_eq_true_iff (l : List UrlRecord) (u : String) :
    l.any (fun r => r.url == u) = true ↔ ∃ r ∈ l, r.url = u := by
  simp [List.any_eq_true]

/-- After a successful `shortn`, looking the returned identifier up yields the
url that was shortened (shared between several results below). -/
theorem shortn_get_ok {st st' : Store} {fid u id' : String}
    (h : AppState.shortn st fid u false = (.ok id', st')) :
    (AppState.get_url st' id' false).1 = .ok u := by
  obtain ⟨hid, -, -, hcase⟩ := shortn_ok_cases h
  have hfind : st'.rows.find? (fun r => r.id == fid) = some ⟨fid, u⟩ := by
    rcases hcase with ⟨hdup, hrows⟩ | ⟨hdup, hrows⟩
    · rw [hrows]
      exact find_id_map_overwrite ((any_url_eq_true_iff _ _).mp hdup)
        (shortn_ok_no_foreign_id h)
    · rw [hrows]
      refine find_id_append ?_
      intro r hr
      have hru : r.url ≠ u := by
        have hx := List.any_eq_false.mp hdup r hr
        simpa using hx
      exact shortn_ok_no_foreign_id h r hr hru
  unfold AppState.get_url execSelectUrl
  rw [hid]
  simp [hfind]

/-- C1: a successful `put` (`AppState::shortn` run with fresh identifier
`fid`) returns exactly the freshly generated identifier; when some row already
holds exactly the url `u` the store overwrites that row's id with `fid`
(conflict resolution keyed on url, not id), otherwise the new row `(fid, u)`
is inserted; in both cases the id persisted for `u` by the operation is the
returned fresh identifier. -/
theorem shortn_upsert_on_url (st st' : Store) (fid u id' : String)
    (h : AppState.shortn st fid u false = (.ok id', st')) :
    id' = fid ∧
    ((∃ r ∈ st.rows, r.url = u) → st'.rows = st.rows.map (overwriteId fid u)) ∧
    ((¬ ∃ r ∈ st.rows, r.url = u) → st'.rows = st.rows ++ [⟨fid, u⟩]) ∧
    st'.rows.find? (fun r => r.url == u) = some ⟨fid, u⟩ := by
  obtain ⟨hid, hcol, -, hcase⟩ := shortn_ok_cases h
  rcases hcase with ⟨hdup, hrows⟩ | ⟨hdup, hrows⟩
  · have hdup' : ∃ r ∈ st.rows, r.url = u := (any_url_eq_true_iff _ _).mp hdup
    refine ⟨hid, fun _ => hrows, fun hnot => absurd hdup' hnot, ?_⟩
    rw [hrows]
    exact find_url_map_overwrite hdup'
  · have hdup' : ∀ r ∈ st.rows, r.url ≠ u := by
      intro r hr
      have hx := List.any_eq_false.mp hdup r hr
      simpa using hx
    refine ⟨hid, fun hex => ?_, fun _ => hrows, ?_⟩
    · obtain ⟨r, hr, hru⟩ := hex
      exact absurd hru (hdup' r hr)
    · rw [hrows]
      exact find_url_append hdup'

theorem shortn_upsert_on_url_witness :
    AppState.shortn ⟨true, []⟩ "abc123" "https://x" false =
      (.ok "abc123", ⟨true, [⟨"abc123", "https://x"⟩]⟩) ∧
    ("abc123" = "abc123" ∧
     ((∃ r ∈ (⟨true, ([] : List UrlRecord)⟩ : Store).rows, r.url = "https://x") →
        (⟨true, [⟨"abc123", "https://x"⟩]⟩ : Store).rows =
          (⟨true, ([] : List UrlRecord)⟩ : Store).rows.map (overwriteId "abc123" "https://x")) ∧
     ((¬ ∃ r ∈ (⟨true, ([] : List UrlRecord)⟩ : Store).rows, r.url = "https://x") →
        (⟨true, [⟨"abc123", "https://x"⟩]⟩ : Store).rows =
          (⟨true, ([] : List UrlRecord)⟩ : Store).rows ++ [⟨"abc123", "https://x"⟩]) ∧
     (⟨true, [⟨"abc123", "https://x"⟩]⟩ : Store).rows.find?
        (fun r => r.url == "https://x") = some ⟨"abc123", "https://x"⟩) :=
  ⟨rfl, shortn_upsert_on_url ⟨true, []⟩ ⟨true, [⟨"abc123", "https://x"⟩]⟩ "abc123" "https://x"
      "abc123" rfl⟩

/-- C2: round-trip — resolving the identifier returned by a successful `put`
of url `u`, with no interleaved operations, yields `u`. -/
theorem get_url_shortn_roundtrip (st st' : Store) (fid u id' : String)
    (h : AppState.shortn st fid u false = (.ok id', st')) :
    (AppState.get_url st' id' false).1 = .ok u :=
  shortn_get_ok h

theorem get_url_shortn_roundtrip_witness :
    AppState.shortn ⟨true, []⟩ "abc123" "https://x" false =
      (.ok "abc123", ⟨true, [⟨"abc123", "https://x"⟩]⟩) ∧
    (AppState.get_url ⟨true, [⟨"abc123", "https://x"⟩]⟩ "abc123" false).1 = .ok "https://x" :=
  ⟨rfl, get_url_shortn_roundtrip ⟨true, []⟩ ⟨true, [⟨"abc123", "https://x"⟩]⟩ "abc123"
      "https://x" "abc123" rfl⟩

/-- C3: re-shortening the same url with a distinct fresh identifier
invalidates the old identifier — both calls return their fresh identifier,
resolving the first identifier afterwards fails (`RowNotFound` at the store,
`GetUrlError` at the service), and resolving the second yields the url. -/
theorem reshorten_invalidates_old_id (st st1 st2 : Store) (id1 id2 u r1 r2 : String)
    (h1 : AppState.shortn st id1 u false = (.ok r1, st1))
    (h2 : AppState.shortn st1 id2 u false = (.ok r2, st2))
    (hne : id1 ≠ id2) :
    r1 = id1 ∧ r2 = id2 ∧
    (execSelectUrl st2 id1 false).1 = .error .RowNotFound ∧
    (AppState.get_url st2 id1 false).1 = .error .GetUrlError ∧
    (AppState.get_url st2 id2 false).1 = .ok u := by
  obtain ⟨hr1, -, -, -⟩ := shortn_ok_cases h1
  obtain ⟨hr2, -, -, -⟩ := shortn_ok_cases h2
  have hnone : st2.rows.find? (fun r => r.id == id1) = none := by
    apply List.find?_eq_none.mpr
    intro r hr
    have hne1 : r.id ≠ id1 := by
      rcases shortn_ok_mem h2 r hr with ⟨hru, hrid⟩ | ⟨hmem1, hru⟩
      · rw [hrid]
        exact fun he => hne he.symm
      · rcases shortn_ok_mem h1 r hmem1 with ⟨hru1, -⟩ | ⟨hmem0, -⟩
        · exact absurd hru1 hru
        · exact shortn_ok_no_foreign_id h1 r hmem0 hru
    simpa using hne1
  have hok : (AppState.get_url st2 r2 false).1 = .ok u := shortn_get_ok h2
  refine ⟨hr1, hr2, ?_, ?_, ?_⟩
  · unfold execSelectUrl
    simp [hnone]
  · unfold AppState.get_url execSelectUrl
    simp [hnone]
  · rw [← hr2]
    exact hok

theorem reshorten_invalidates_old_id_witness :
    AppState.shortn ⟨true, []⟩ "abc123" "https://x" false =
      (.ok "abc123", ⟨true, [⟨"abc123", "https://x"⟩]⟩) ∧
    AppState.shortn ⟨true, [⟨"abc123", "https://x"⟩]⟩ "zzz999" "https://x" false =
      (.ok "zzz999", ⟨true, [⟨"zzz999", "https://x"⟩]⟩) ∧
    ("abc123" : String) ≠ "zzz999" ∧
    ("abc123" = "abc123" ∧ "zzz999" = "zzz999" ∧
     (execSelectUrl ⟨true, [⟨"zzz999", "https://x"⟩]⟩ "abc123" false).1 =
       .error .RowNotFound ∧
     (AppState.get_url ⟨true, [⟨"zzz999", "https://x"⟩]⟩ "abc123" false).1 =
       .error .GetUrlError ∧
     (AppState.get_url ⟨true, [⟨"zzz999", "https://x"⟩]⟩ "zzz999" false).1 = .ok "https://x") :=
  ⟨rfl, rfl, by decide,
   reshorten_invalidates_old_id ⟨true, []⟩ ⟨true, [⟨"abc123", "https://x"⟩]⟩
     ⟨true, [⟨"zzz999", "https://x"⟩]⟩ "abc123" "zzz999" "https://x" "abc123" "zzz999"
     rfl rfl (by decide)⟩

theorem overwriteId_url (fid u : String) (r : UrlRecord) :
    (overwriteId fid u r).url = r.url := by
  unfold overwriteId
  split <;> rfl

theorem execUpsert_error_state {st st2 : Store} {fid u : String} {e : SqlxError}
    (h : execUpsert st fid u false = (.error e, st2)) : st2 = st := by
  unfold execUpsert at h
  cases hcol : st.rows.any (fun r => r.id == fid && r.url != u) with
  | true =>
      simp only [hcol] at h
      simp only [Bool.false_eq_true, if_false, if_true, Prod.mk.injEq] at h
      exact h.2.symm
  | false =>
      cases hdup : st.rows.any (fun r => r.url == u) with
      | true => simp [hcol, hdup] at h
      | false => simp [hcol, hdup] at h

theorem shortn_error_state {st st' : Store} {fid u : String} {e : ShortnError}
    (h : AppState.shortn st fid u false = (.error e, st')) : st' = st := by
  unfold AppState.shortn at h
  cases hup : execUpsert st fid u false with
  | mk res st2 =>
      rw [hup] at h
      cases res with
      | ok row => simp at h
      | error e2 =>
          simp only [Prod.mk.injEq] at h
          obtain ⟨-, hst⟩ := h
          subst hst
          exact execUpsert_error_state hup

/-- Overwriting the id of the url-`u` row keeps the ids pairwise distinct,
given that the store was well-formed and no row with a different url held the
fresh id. -/
theorem nodup_ids_overwrite {fid u : String} {l : List UrlRecord}
    (hid : (l.map UrlRecord.id).Nodup) (hurl : (l.map UrlRecord.url).Nodup)
    (hcol : ∀ r ∈ l, r.url ≠ u → r.id ≠ fid) :
    ((l.map (overwriteId fid u)).map UrlRecord.id).Nodup := by
  induction l with
  | nil => simp
  | cons a t ih =>
      simp only [List.map_cons, List.nodup_cons] at hid hurl ⊢
      obtain ⟨hida, hidt⟩ := hid
      obtain ⟨hurla, hurlt⟩ := hurl
      have hcolt : ∀ r ∈ t, r.url ≠ u → r.id ≠ fid :=
        fun r hr => hcol r (List.mem_cons_of_mem a hr)
      refine ⟨?_, ih hidt hurlt hcolt⟩
      intro hmem
      obtain ⟨r1, hr1, heq⟩ := List.mem_map.mp hmem
      obtain ⟨r0, hr0, rfl⟩ := List.mem_map.mp hr1
      by_cases ha : a.url = u
      · have hr0u : r0.url ≠ u := by
          intro h0
          exact hurla (List.mem_map.mpr ⟨r0, hr0, by rw [h0, ha]⟩)
        have : (overwriteId fid u r0).id = r0.id := by
          unfold overwriteId
          simp [hr0u]
        rw [this] at heq
        have : (overwriteId fid u a).id = fid := by
          unfold overwriteId
          simp [ha]
        rw [this] at heq
        exact hcolt r0 hr0 hr0u heq
      · have : (overwriteId fid u a).id = a.id := by
          unfold overwriteId
          simp [ha]
        rw [this] at heq
        by_cases h0 : r0.url = u
        · have : (overwriteId fid u r0).id = fid := by
            unfold overwriteId
            simp [h0]
          rw [this] at heq
          exact hcol a (List.mem_cons_self a t) ha heq.symm
        · have : (overwriteId fid u r0).id = r0.id := by
            unfold overwriteId
            simp [h0]
          rw [this] at heq
          exact hida (List.mem_map.mpr ⟨r0, hr0, heq⟩)

/-- One `put` call preserves both uniqueness invariants of the table. -/
theorem runPut_preserves_nodup {st : Store} (op : String × String)
    (hid : (st.rows.map UrlRecord.id).Nodup)
    (hurl : (st.rows.map UrlRecord.url).Nodup) :
    ((runPut st op).rows.map UrlRecord.id).Nodup ∧
    ((runPut st op).rows.map UrlRecord.url).Nodup := by
  cases hres : AppState.shortn st op.1 op.2 false with
  | mk res st' =>
      have hrp : runPut st op = st' := by
        unfold runPut
        rw [hres]
      rw [hrp]
      cases res with
      | error e =>
          rw [shortn_error_state hres]
          exact ⟨hid, hurl⟩
      | ok id' =>
          obtain ⟨-, -, -, hcase⟩ := shortn_ok_cases hres
          rcases hcase with ⟨hdup, hrows⟩ | ⟨hdup, hrows⟩
          · rw [hrows]
            refine ⟨nodup_ids_overwrite hid hurl (shortn_ok_no_foreign_id hres), ?_⟩
            rw [List.map_map]
            have hcomp : (UrlRecord.url ∘ overwriteId op.1 op.2) = UrlRecord.url :=
              funext (overwriteId_url op.1 op.2)
            rw [hcomp]
            exact hurl
          · have hnourl : ∀ r ∈ st.rows, r.url ≠ op.2 := by
              intro r hr
              have hx := List.any_eq_false.mp hdup r hr
              simpa using hx
            have hnoid : ∀ r ∈ st.rows, r.id ≠ op.1 :=
              fun r hr => shortn_ok_no_foreign_id hres r hr (hnourl r hr)
            rw [hrows]
            constructor
            · rw [List.map_append]
              refine List.Nodup.append hid (List.nodup_singleton _) ?_
              intro a ha hax
              simp only [List.map_cons, List.map_nil, List.mem_singleton] at hax
              subst hax
              obtain ⟨r, hr, hrid⟩ := List.mem_map.mp ha
              exact hnoid r hr hrid
            · rw [List.map_append]
              refine List.Nodup.append hurl (List.nodup_singleton _) ?_
              intro a ha hax
              simp only [List.map_cons, List.map_nil, List.mem_singleton] at hax
              subst hax
              obtain ⟨r, hr, hru⟩ := List.mem_map.mp ha
              exact hnourl r hr hru

theorem foldl_runPut_preserves_nodup (ops : List (String × String)) :
    ∀ st : Store,
    (st.rows.map UrlRecord.id).Nodup → (st.rows.map UrlRecord.url).Nodup →
    (((ops.foldl runPut st).rows.map UrlRecord.id).Nodup ∧
     ((ops.foldl runPut st).rows.map UrlRecord.url).Nodup) := by
  induction ops with
  | nil =>
      intro st h1 h2
      exact ⟨h1, h2⟩
  | cons op rest ih =>
      intro st h1 h2
      rw [List.foldl_cons]
      obtain ⟨h1', h2'⟩ := runPut_preserves_nodup op h1 h2
      exact ih _ h1' h2'

/-- C4: starting from the freshly provisioned empty store, after any sequence
of `put` calls no two rows of the table share an id and no two rows share a
url (and hence the same holds at every intermediate point, which is the state
after the corresponding prefix of the sequence). -/
theorem runPuts_unique_ids_and_urls (ops : List (String × String)) :
    ((runPuts ops).rows.map UrlRecord.id).Nodup ∧
    ((runPuts ops).rows.map UrlRecord.url).Nodup := by
  unfold runPuts
  exact foldl_runPut_preserves_nodup ops (execCreateTable ⟨false, []⟩) List.nodup_nil List.nodup_nil

theorem runPut_mem_urls {st : Store} {op : String × String} :
    ∀ r ∈ (runPut st op).rows, r.url = op.2 ∨ r ∈ st.rows := by
  intro r hr
  cases hres : AppState.shortn st op.1 op.2 false with
  | mk res st' =>
      have hrp : runPut st op = st' := by
        unfold runPut
        rw [hres]
      rw [hrp] at hr
      cases res with
      | error e =>
          rw [shortn_error_state hres] at hr
          exact .inr hr
      | ok id' =>
          rcases shortn_ok_mem hres r hr with ⟨hru, -⟩ | ⟨hmem, -⟩
          · exact .inl hru
          · exact .inr hmem

theorem foldl_runPut_mem_urls (ops : List (String × String)) :
    ∀ st : Store, ∀ r ∈ (ops.foldl runPut st).rows,
      (∃ op ∈ ops, r.url = op.2) ∨ r ∈ st.rows := by
  induction ops with
  | nil =>
      intro st r hr
      exact .inr hr
  | cons op rest ih =>
      intro st r hr
      rw [List.foldl_cons] at hr
      rcases ih (runPut st op) r hr with ⟨op1, hop1, hurl⟩ | hmem
      · exact .inl ⟨op1, List.mem_cons_of_mem _ hop1, hurl⟩
      · rcases runPut_mem_urls r hmem with hurl | hmem0
        · exact .inl ⟨op, List.mem_cons_self _ _, hurl⟩
        · exact .inr hmem0

/-- C5 counterexample: the code performs no validation of the submitted url,
so a `put` of the empty string succeeds and a reachable store state contains
a row whose url is the empty string — refuting the claimed non-empty-url
invariant. -/
theorem empty_url_reachable :
    ∃ r ∈ (runPuts [("abc123", "")]).rows, r.url = "" := by
  refine ⟨⟨"abc123", ""⟩, ?_, rfl⟩
  decide

/-- C5 (amended): no non-emptiness invariant is enforced; what holds instead
is that every stored row's url is one of the submitted url strings, stored
verbatim (including, possibly, the empty string). -/
theorem runPuts_urls_verbatim (ops : List (String × String)) :
    ∀ r ∈ (runPuts ops).rows, ∃ op ∈ ops, r.url = op.2 := by
  intro r hr
  unfold runPuts at hr
  rcases foldl_runPut_mem_urls ops (execCreateTable ⟨false, []⟩) r hr with hx | hx
  · exact hx
  · exact absurd hx (List.not_mem_nil r)

theorem runPuts_urls_verbatim_witness :
    (⟨"abc123", ""⟩ : UrlRecord) ∈ (runPuts [("abc123", "")]).rows ∧
    ∃ op ∈ [("abc123", "")], (⟨"abc123", ""⟩ : UrlRecord).url = op.2 :=
  ⟨by decide, runPuts_urls_verbatim [("abc123", "")] ⟨"abc123", ""⟩ (by decide)⟩

theorem nanoidAlphabet_getD_mem (k : Fin 64) :
    nanoidAlphabet.getD k.val ' ' ∈ nanoidAlphabet := by
  have hlen : nanoidAlphabet.length = 64 := by decide
  have hk : k.val < nanoidAlphabet.length := by
    rw [hlen]
    exact k.isLt
  rw [List.getD_eq_getElem _ _ hk]
  exact List.getElem_mem hk

/-- C6: every identifier generated by `put` — a `nanoid!(6)` value — is a
string of exactly 6 characters drawn from the URL-safe default alphabet,
which consists of 64 distinct symbols, each a letter, a digit, an underscore
or a hyphen. -/
theorem nanoid_identifier_format (pick : Nat → Fin 64) :
    (nanoid 6 pick).length = 6 ∧
    (∀ c ∈ (nanoid 6 pick).toList, c ∈ nanoidAlphabet) ∧
    nanoidAlphabet.length = 64 ∧
    nanoidAlphabet.Nodup ∧
    (∀ c ∈ nanoidAlphabet, c.isAlphanum = true ∨ c = '_' ∨ c = '-') := by
  refine ⟨?_, ?_, by decide, by decide, by decide⟩
  · unfold nanoid
    rw [String.length_mk, List.length_map, List.length_range]
  · intro c hc
    have hc1 : c ∈ (List.range 6).map (fun i => nanoidAlphabet.getD (pick i).val ' ') := hc
    obtain ⟨i, -, rfl⟩ := List.mem_map.mp hc1
    exact nanoidAlphabet_getD_mem (pick i)

theorem nanoid_identifier_format_witness :
    (nanoid 6 (fun _ => (0 : Fin 64))).length = 6 ∧ '_' ∈ nanoidAlphabet :=
  ⟨(nanoid_identifier_format (fun _ => 0)).1,
   (nanoid_identifier_format (fun _ => 0)).2.1 '_' (by decide)⟩

/-- C7: resolution conflates all failure causes — whether no row holds the id
or the store call fails for any other reason, `get_url` yields the single
`GetUrlError` outcome, and the `redirect` handler maps every resolution
failure uniformly to an HTTP 404 response. -/
theorem resolve_error_conflation (st : Store) (id : String) (fault : Bool)
    (h : (∀ r ∈ st.rows, r.id ≠ id) ∨ fault = true) :
    (AppState.get_url st id fault).1 = .error .GetUrlError ∧
    (redirect st id fault).1 = .error 404 := by
  have hg : (AppState.get_url st id fault).1 = .error .GetUrlError := by
    cases fault with
    | true => rfl
    | false =>
        rcases h with hnone | hfault
        · have hfind : st.rows.find? (fun r => r.id == id) = none :=
            List.find?_eq_none.mpr (fun r hr => by simp [hnone r hr])
          unfold AppState.get_url execSelectUrl
          simp [hfind]
        · exact absurd hfault (by simp)
  refine ⟨hg, ?_⟩
  unfold redirect
  cases hu : AppState.get_url st id fault with
  | mk res st' =>
      rw [hu] at hg
      cases res with
      | ok url => simp at hg
      | error e => rfl

theorem resolve_error_conflation_witness :
    ((∀ r ∈ (⟨true, ([] : List UrlRecord)⟩ : Store).rows, r.id ≠ "nosuch") ∨
      false = true) ∧
    ((AppState.get_url ⟨true, []⟩ "nosuch" false).1 = .error .GetUrlError ∧
     (redirect ⟨true, []⟩ "nosuch" false).1 = .error 404) :=
  ⟨.inl (fun r hr => absurd hr (List.not_mem_nil r)),
   resolve_error_conflation ⟨true, []⟩ "nosuch" false
     (.inl (fun r hr => absurd hr (List.not_mem_nil r)))⟩

/-- C8: the `POST /` handler answers HTTP 201 with a body containing the id
returned by `shortn` together with the short link composed as the base
address, `/`, and that same id; when the shorten operation fails it answers
HTTP 500 — the failure is always surfaced, never retried or swallowed. -/
theorem shortner_response_shape (st : Store) (fid u : String) (fault : Bool) :
    (∀ id' st', AppState.shortn st fid u fault = (.ok id', st') →
       (shortner st fid u fault).1 = .ok (201, ⟨id', baseAddr ++ "/" ++ id'⟩)) ∧
    (∀ e st', AppState.shortn st fid u fault = (.error e, st') →
       (shortner st fid u fault).1 = .error 500) := by
  constructor
  · intro id' st' h
    unfold shortner
    rw [h]
  · intro e st' h
    unfold shortner
    rw [h]

theorem shortner_response_shape_witness :
    AppState.shortn ⟨true, []⟩ "abc123" "https://x" false =
      (.ok "abc123", ⟨true, [⟨"abc123", "https://x"⟩]⟩) ∧
    (shortner ⟨true, []⟩ "abc123" "https://x" false).1 =
      .ok (201, ⟨"abc123", baseAddr ++ "/" ++ "abc123"⟩) :=
  ⟨rfl, (shortner_response_shape ⟨true, []⟩ "abc123" "https://x" false).1 "abc123"
    ⟨true, [⟨"abc123", "https://x"⟩]⟩ rfl⟩

/-- C9: schema provisioning at startup is idempotent — running the
`CREATE TABLE IF NOT EXISTS` statement again leaves the store exactly as one
run leaves it, whether or not the table already existed, and never touches
the rows — and when the store cannot be reached or the statement fails,
`try_new` fails with `ConnectionFailure` (the spec's `StoreUnavailable`) and
the `main` start-up sequence aborts with that error instead of continuing. -/
theorem try_new_schema_provisioning (st : Store) (cf sf : Bool) :
    execCreateTable (execCreateTable st) = execCreateTable st ∧
    (execCreateTable st).tableExists = true ∧
    (execCreateTable st).rows = st.rows ∧
    (cf = true ∨ sf = true → mainStartup st cf sf = .error .ConnectionFailure) ∧
    (cf = false → sf = false → mainStartup st cf sf = .ok (execCreateTable st)) := by
  refine ⟨rfl, rfl, rfl, ?_, ?_⟩
  · rintro (rfl | rfl)
    · rfl
    · cases cf <;> rfl
  · rintro rfl rfl
    rfl

theorem try_new_schema_provisioning_witness :
    ((true = true ∨ false = true) ∧
     mainStartup ⟨false, []⟩ true false = .error .ConnectionFailure) ∧
    mainStartup ⟨false, []⟩ false false = .ok (execCreateTable ⟨false, []⟩) :=
  ⟨⟨.inl rfl, (try_new_schema_provisioning ⟨false, []⟩ true false).2.2.2.1 (.inl rfl)⟩,
   (try_new_schema_provisioning ⟨false, []⟩ false false).2.2.2.2 rfl rfl⟩

/-- C10: resolution is read-only — `get_url`, and the `redirect` handler
built on it, leave the stored id-to-url mapping unchanged in the success case
and in every failure case. -/
theorem resolve_read_only (st : Store) (id : String) (fault : Bool) :
    (AppState.get_url st id fault).2 = st ∧ (redirect st id fault).2 = st := by
  have hg := get_url_snd st id fault
  refine ⟨hg, ?_⟩
  unfold redirect
  cases hu : AppState.get_url st id fault with
  | mk res st' =>
      rw [hu] at hg
      cases res with
      | ok url =>
          by_cases hh : headerEncodable url
          · simp only [hh, if_true]
            exact hg
          · simp only [hh, Bool.false_eq_true, if_false]
            exact hg
      | error e => exact hg
